import Mathlib

/-!
Shallow embedding of the core of a small Rust HTTP server
(src/src/http.rs, src/src/router.rs, src/rust_http_server/src/server.rs).

Byte streams are modelled as `List Char` (one `Char` per byte; all the
behaviour the claims exercise is ASCII, where Rust's `char` operations
and Lean's agree).  Rust `HashMap<String, String>` values are modelled
as association lists whose `insert` overwrites the value of an existing
key in place, which is observationally the same map.
-/

/-- Rust `char::is_whitespace` restricted to the ASCII whitespace the
    parser can actually meet (space, tab, CR, LF); this is Lean's
    `Char.isWhitespace`. -/
def isWS (c : Char) : Bool := c.isWhitespace

/-- Rust `str::trim_end`: drop trailing whitespace. -/
def trimEnd (s : List Char) : List Char := ((s.reverse).dropWhile isWS).reverse

/-- Rust `str::trim_start`: drop leading whitespace. -/
def trimStart (s : List Char) : List Char := s.dropWhile isWS

/-- Rust `str::trim`: drop whitespace at both ends. -/
def trim (s : List Char) : List Char := trimEnd (trimStart s)

/-- Rust `str::to_lowercase`, at the ASCII fragment relevant here:
    Lean's `Char.toLower` maps exactly the letters `A`-`Z`. -/
def toLowerStr (s : List Char) : List Char := s.map Char.toLower

/-- Word accumulation loop of Rust `str::split_whitespace`; `acc` holds
    the characters of the current word, reversed. -/
def splitWSAux (acc : List Char) : List Char → List (List Char)
  | [] => if acc.isEmpty then [] else [acc.reverse]
  | c :: cs =>
    if isWS c then
      (if acc.isEmpty then [] else [acc.reverse]) ++ splitWSAux [] cs
    else splitWSAux (c :: acc) cs

/-- Rust `str::split_whitespace`: maximal runs of non-whitespace
    characters, with whitespace runs discarded. -/
def splitWhitespace (s : List Char) : List (List Char) := splitWSAux [] s

/-- Rust `str::split(sep)` (always at least one piece, empty pieces
    kept), e.g. `"".split('/') = [""]` and `"/a".split('/') = ["", "a"]`. -/
def splitSep (sep : Char) (s : List Char) : List (List Char) :=
  match s with
  | [] => [[]]
  | c :: cs =>
    match splitSep sep cs with
    | [] => [[]]
    | t :: ts => if c = sep then [] :: t :: ts else (c :: t) :: ts

/-- Rust `str::split_once(sep)`: split at the first occurrence of `sep`,
    `none` when `sep` does not occur. -/
def splitOnce (sep : Char) (s : List Char) : Option (List Char × List Char) :=
  match s with
  | [] => none
  | c :: cs =>
    if c = sep then some ([], cs)
    else
      match splitOnce sep cs with
      | none => none
      | some (a, b) => some (c :: a, b)

/-- Header-section loop of `HttpRequest::parse` (the `read_line` /
    `trim_end` / empty-line-break loop): `cur` holds the bytes of the
    current line read so far, reversed, with the terminating `\n` not
    yet seen.  `none` models the `UnexpectedEof` error returned when
    `read_line` reads 0 bytes before the blank line; at the end of the
    stream a partial line is still delivered by `read_line`, is trimmed
    and, when non-empty, is followed by a 0-byte read (so an error).
    Returns the trimmed non-empty lines and the unread remainder. -/
def readHeaderLinesAux (cur : List Char) : List Char → Option (List (List Char) × List Char)
  | [] =>
    if cur.isEmpty then none
    else if (trimEnd cur.reverse).isEmpty then some ([], [])
    else none
  | c :: cs =>
    if c = '\n' then
      if (trimEnd (cur.reverse ++ ['\n'])).isEmpty then some ([], cs)
      else
        match readHeaderLinesAux [] cs with
        | none => none
        | some (ls, r) => some (trimEnd (cur.reverse ++ ['\n']) :: ls, r)
    else readHeaderLinesAux (c :: cur) cs

/-- Header section of `HttpRequest::parse`: read lines until a line that
    is empty after `trim_end`. -/
def readHeaderLines (input : List Char) : Option (List (List Char) × List Char) :=
  readHeaderLinesAux [] input

/-- Rust `str::parse::<usize>()`: optional leading `+`, then at least one
    ASCII digit, rejecting values that overflow 64-bit `usize`. -/
def parseUsize (s : List Char) : Option Nat :=
  let t := match s with
           | '+' :: rest => rest
           | _ => s
  if t.isEmpty then none
  else if t.all Char.isDigit then
    let n := t.foldl (fun acc c => acc * 10 + (c.toNat - 48)) 0
    if n < 2 ^ 64 then some n else none
  else none

/-- Model of Rust `HashMap<String, String>`: an association list with at
    most one entry per key. -/
abbrev HMap := List (List Char × List Char)

/-- Map lookup (`HashMap::get`). -/
def hlookup (k : List Char) (m : HMap) : Option (List Char) :=
  match m with
  | [] => none
  | (k', v) :: rest => if k' = k then some v else hlookup k rest

/-- Map insert (`HashMap::insert`): overwrite the value when the key is
    present, append a fresh entry otherwise. -/
def hinsert (m : HMap) (k v : List Char) : HMap :=
  match m with
  | [] => [(k, v)]
  | (k', v') :: rest => if k' = k then (k', v) :: rest else (k', v') :: hinsert rest k v

/-- Rust `Read::read_exact` into a buffer of `n` bytes: succeeds with the
    first `n` bytes and the remainder, or fails (`UnexpectedEof`) when
    fewer than `n` bytes remain before the stream closes. -/
def readExact (n : Nat) (input : List Char) : Option (List Char × List Char) :=
  if n ≤ input.length then some (input.take n, input.drop n) else none

/-- Error kinds of `std::io::Error` produced by `HttpRequest::parse`. -/
inductive IOErr where
  | unexpectedEof
  | invalidData
deriving DecidableEq

/-- struct `HttpRequest` of src/src/http.rs. -/
structure HttpRequest where
  method : List Char
  path : List Char
  version : List Char
  headers : HMap
  body : List Char
deriving DecidableEq

/-- Result of `HttpRequest::parse` (`io::Result<HttpRequest>` plus the
    unread remainder of the stream). -/
inductive ParseResult where
  | ok : HttpRequest → List Char → ParseResult
  | err : IOErr → ParseResult
deriving DecidableEq

/-- Key under which the body length is looked up. -/
def clKey : List Char := "content-length".toList

/-- Header-line processing step of `HttpRequest::parse`: split on the
    first colon, key trimmed and lowercased, value trimmed; lines with no
    colon are skipped. -/
def headerStep (m : HMap) (line : List Char) : HMap :=
  match splitOnce ':' line with
  | some (k, v) => hinsert m (toLowerStr (trim k)) (trim v)
  | none => m

/-- Header map built from the header lines, in order (duplicates
    overwrite). -/
def buildHeaders (lines : List (List Char)) : HMap :=
  lines.foldl headerStep []

/-- Body-reading step of `HttpRequest::parse`: when a `content-length`
    header is present and parses as `usize`, read exactly that many
    bytes (an early close is an I/O error); otherwise the body is empty
    and the stream is left untouched. -/
def readBody (headers : HMap) (rest : List Char) : Except IOErr (List Char × List Char) :=
  match hlookup clKey headers with
  | some v =>
    match parseUsize v with
    | some n =>
      match readExact n rest with
      | some (b, r) => .ok (b, r)
      | none => .error .unexpectedEof
    | none => .ok ([], rest)
  | none => .ok ([], rest)

/-- Stage of `HttpRequest::parse` after the header section has been
    read: request-line token check, header map, body. -/
def parseAfterHeaders (requestLine : List Char) (headerLines : List (List Char))
    (rest : List Char) : ParseResult :=
  match splitWhitespace requestLine with
  | [method, path, version] =>
    let headers := buildHeaders headerLines
    match readBody headers rest with
    | .ok (body, leftover) =>
      .ok { method := method, path := path, version := version,
            headers := headers, body := body } leftover
    | .error e => .err e
  | _ => .err .invalidData

/-- Function `HttpRequest::parse` of src/src/http.rs, over a byte
    stream. -/
def HttpRequest.parse (input : List Char) : ParseResult :=
  match readHeaderLines input with
  | none => .err .unexpectedEof
  | some ([], _) => .err .invalidData
  | some (requestLine :: headerLines, rest) =>
    parseAfterHeaders requestLine headerLines rest

/-- struct `HttpResponse` of src/src/http.rs. -/
structure HttpResponse where
  status_code : Nat
  status_text : List Char
  headers : HMap
  body : List Char
deriving DecidableEq

/-- Decimal rendering of a number, as Rust's `format!` displays `u16`
    and `usize`. -/
def natDec (n : Nat) : List Char := (toString n).toList

/-- Function `HttpResponse::new`: status plus the two default headers. -/
def HttpResponse.new (code : Nat) (text : List Char) : HttpResponse :=
  { status_code := code, status_text := text,
    headers := hinsert (hinsert [] ( "Server".toList) ( "RustHTTP/1.0".toList))
                 ( "Content-Type".toList) ( "application/json".toList),
    body := [] }

/-- Function `HttpResponse::with_body`: set the body and overwrite the
    `Content-Length` header with its length. -/
def HttpResponse.with_body (r : HttpResponse) (b : List Char) : HttpResponse :=
  { r with body := b,
           headers := hinsert r.headers ( "Content-Length".toList) (natDec b.length) }

/-- Function `HttpResponse::ok`. -/
def HttpResponse.ok (b : List Char) : HttpResponse :=
  (HttpResponse.new 200 ( "OK".toList)).with_body b

/-- Function `HttpResponse::not_found`. -/
def HttpResponse.notFound (b : List Char) : HttpResponse :=
  (HttpResponse.new 404 ( "Not Found".toList)).with_body b

/-- CRLF line terminator. -/
def crlf : List Char := ['\r', '\n']

/-- One serialized response header line `"<key>: <value>\r\n"`. -/
def headerLineBytes (kv : List Char × List Char) : List Char :=
  kv.1 ++ ':' :: ' ' :: kv.2 ++ crlf

/-- Function `HttpResponse::to_bytes` of src/src/http.rs: status line
    (version literal `HTTP/1.1`), header lines accumulated in map order,
    a blank line, then the body, mirroring the `extend_from_slice`
    accumulation of the source. -/
def HttpResponse.to_bytes (r : HttpResponse) : List Char :=
  let resp := "HTTP/1.1 ".toList ++ natDec r.status_code ++ ' ' :: r.status_text ++ crlf
  let resp := r.headers.foldl (fun acc kv => acc ++ headerLineBytes kv) resp
  resp ++ crlf ++ r.body

/-- struct `Request` of src/src/router.rs (the handler-facing request
    with a path-parameter map). -/
structure Request where
  method : List Char
  path : List Char
  headers : HMap
  body : List Char
  params : HMap

/-- enum `MiddlewareResult` of src/src/router.rs. -/
inductive MiddlewareResult where
  | Continue
  | Stop
deriving DecidableEq

/-- Handler type: request to response. -/
abbrev Handler := Request → HttpResponse

/-- Middleware type: the Rust middleware takes the request and a mutable
    response and returns `Continue`/`Stop`; here the mutation is the
    returned response. -/
abbrev Middleware := Request → HttpResponse → MiddlewareResult × HttpResponse

/-- struct `Route` of src/src/router.rs. -/
structure Route where
  method : List Char
  pattern : List Char
  param_names : List (List Char)
  handler : Handler

/-- struct `Router` of src/src/router.rs. -/
structure Router where
  routes : List Route
  middlewares : List Middleware
  not_found_handler : Option Handler

/-- Test for a parameter segment (`seg.starts_with(':')`). -/
def isParamSeg (seg : List Char) : Bool :=
  match seg with
  | ':' :: _ => true
  | _ => false

/-- Function `extract_param_names` of src/src/router.rs:
    `pattern.split('/').filter(starts_with ':').map(seg[1..])`. -/
def extract_param_names (pattern : List Char) : List (List Char) :=
  ((splitSep '/' pattern).filter isParamSeg).map List.tail

/-- Loop body of `match_path`: walk the zipped segment lists carrying
    `param_index` into `names`; a parameter segment binds
    `names[param_index]` to the path segment, a literal segment must be
    equal or the whole match fails. -/
def matchSegsAux (names : List (List Char)) :
    List (List Char) → List (List Char) → Nat → HMap → Option HMap
  | [], _, _, params => some params
  | _ :: _, [], _, params => some params
  | pSeg :: ps, qSeg :: qs, i, params =>
    if isParamSeg pSeg then
      if i < names.length then
        matchSegsAux names ps qs (i + 1) (hinsert params (names.getD i []) qSeg)
      else
        matchSegsAux names ps qs i params
    else if pSeg = qSeg then
      matchSegsAux names ps qs i params
    else none

/-- Function `match_path` of src/src/router.rs: split both pattern and
    path on `/`, require equal segment counts, then walk the segments. -/
def match_path (pattern : List Char) (param_names : List (List Char))
    (path : List Char) : Option HMap :=
  let ps := splitSep '/' pattern
  let qs := splitSep '/' path
  if ps.length ≠ qs.length then none
  else matchSegsAux param_names ps qs 0 []

/-- Middleware loop of `Router::handle`: returns whether some middleware
    stopped the chain, and the response at that point (or after the whole
    chain). -/
def runMiddlewares (ms : List Middleware) (req : Request) (resp : HttpResponse) :
    Bool × HttpResponse :=
  match ms with
  | [] => (false, resp)
  | m :: rest =>
    match m req resp with
    | (MiddlewareResult.Continue, resp') => runMiddlewares rest req resp'
    | (MiddlewareResult.Stop, resp') => (true, resp')

/-- Route loop of `Router::handle`: first route whose method equals the
    request's and whose pattern matches the path, with its extracted
    parameters. -/
def findRoute (routes : List Route) (req : Request) : Option (Route × HMap) :=
  match routes with
  | [] => none
  | r :: rest =>
    if r.method ≠ req.method then findRoute rest req
    else
      match match_path r.pattern r.param_names req.path with
      | some params => some (r, params)
      | none => findRoute rest req

/-- Body of the default response constructed at the top of
    `Router::handle`. -/
def okBody : List Char := "\x7b\"status\": \"ok\"\x7d".toList

/-- Body of the fixed generic 404 response of `Router::handle`. -/
def notFoundBody : List Char := "\x7b\"error\": \"Not Found\"\x7d".toList

/-- Conversion of the parsed `HttpRequest` into the handler-facing
    `Request` with an empty parameter map (top of `Router::handle`). -/
def initRequest (hr : HttpRequest) : Request :=
  { method := hr.method, path := hr.path, headers := hr.headers,
    body := hr.body, params := [] }

/-- Default response constructed at the top of `Router::handle`. -/
def defaultResponse : HttpResponse := HttpResponse.ok okBody

/-- Function `Router::handle` of src/src/router.rs. -/
def Router.handle (router : Router) (http_req : HttpRequest) : HttpResponse :=
  let request := initRequest http_req
  match runMiddlewares router.middlewares request defaultResponse with
  | (true, resp) => resp
  | (false, _) =>
    match findRoute router.routes request with
    | some (route, params) => route.handler { request with params := params }
    | none =>
      match router.not_found_handler with
      | some h => h request
      | none => HttpResponse.notFound notFoundBody

/-!
Model of the `mpsc` channel lifecycle used by `ThreadPool` in
src/rust_http_server/src/server.rs.  The channel is closed exactly when
every `Sender` handle has been dropped; a worker's blocking `recv`
returns `Err` (and the worker exits its loop) exactly when the queue is
empty and the channel is closed.
-/

/-- State of the `mpsc` channel backing the `ThreadPool` job queue:
    the number of live `Sender` handles and the queued jobs. -/
structure ChannelState where
  senders : Nat
  queue : List Nat
deriving DecidableEq

/-- The channel is closed when no `Sender` handle is alive. -/
def channelClosed (s : ChannelState) : Bool := s.senders == 0

/-- A worker's blocking `recv` observes closure (returns `Err`, so the
    worker breaks out of its loop) exactly when the queue is empty and
    the channel is closed. -/
def recvObservesClosure (s : ChannelState) : Bool :=
  s.queue.isEmpty && channelClosed s

/-- The statement `drop(&self.sender)` in `ThreadPool::drop`: its
    argument is a shared reference `&Sender<Job>`, and dropping a
    reference leaves the referent untouched, so no `Sender` handle is
    released. -/
def dropSenderRef (s : ChannelState) : ChannelState := s

/-- Dropping the `Sender` value itself (what the source comment says the
    line does): one `Sender` handle is released. -/
def dropSenderValue (s : ChannelState) : ChannelState :=
  { s with senders := s.senders - 1 }

/-- Channel state of a freshly built `ThreadPool` (one `Sender` held by
    the pool) with no pending jobs. -/
def idlePoolChannel : ChannelState := { senders := 1, queue := [] }

/-- Modelled from the spec: the repository has no request serializer
    (only `HttpResponse::to_bytes`), so the request wire format of spec
    section 6 — request line, `"<Name>: <Value>"` header lines, blank
    line, body of exactly `Content-Length` bytes — is reconstructed
    here from the spec's words. -/
def requestToBytes (r : HttpRequest) : List Char :=
  ((( r.method ++ ' ' :: r.path ++ ' ' :: r.version) ::
      r.headers.map (fun kv => kv.1 ++ ':' :: ' ' :: kv.2)).map (· ++ crlf)).flatten
    ++ crlf ++ r.body

/-- Literal-segment agreement: at every position, either the pattern
    segment is a parameter or it equals the path segment. -/
def litMatch : List (List Char) → List (List Char) → Bool
  | [], [] => true
  | p :: ps, q :: qs => (isParamSeg p || p == q) && litMatch ps qs
  | _, _ => false

/-- Positional parameter bindings of a pattern/path segment-list pair:
    the k-th parameter segment, left to right, binds its name (the
    segment without the leading `:`) to the path segment at the same
    position. -/
def paramBindings : List (List Char) → List (List Char) → List (List Char × List Char)
  | p :: ps, q :: qs =>
    if isParamSeg p then (p.tail, q) :: paramBindings ps qs else paramBindings ps qs
  | _, _ => []

/-- A route that does not win for a request: wrong method or
    non-matching pattern. -/
def routeFails (r : Route) (req : Request) : Prop :=
  r.method ≠ req.method ∨ match_path r.pattern r.param_names req.path = none

/-- First character, when present, is not whitespace. -/
def headNotWS (s : List Char) : Bool :=
  match s with
  | [] => true
  | c :: _ => !isWS c

/-- Header keys as `HttpRequest::parse` stores them: trimmed, lowercase,
    with no colon and no newline. -/
def wfKey (k : List Char) : Prop :=
  trim k = k ∧ toLowerStr k = k ∧ ':' ∉ k ∧ '\n' ∉ k

/-- Header values as `HttpRequest::parse` stores them: trimmed, with no
    newline. -/
def wfVal (v : List Char) : Prop := trim v = v ∧ '\n' ∉ v

/-- Header maps as `HttpRequest::parse` builds them: normalized entries
    with pairwise-distinct keys. -/
def wfHeaders (m : HMap) : Prop :=
  (∀ kv ∈ m, wfKey kv.1 ∧ wfVal kv.2) ∧ (m.map Prod.fst).Nodup

/-- Relation `HttpRequest::parse` guarantees between the stored body and
    the stored `content-length` header. -/
def bodyConsistent (r : HttpRequest) : Prop :=
  match hlookup clKey r.headers with
  | some v =>
    match parseUsize v with
    | some n => r.body.length = n
    | none => r.body = []
  | none => r.body = []

/-! Basic lemmas about the map model. -/

theorem hlookup_hinsert_self (m : HMap) (k v : List Char) :
    hlookup k (hinsert m k v) = some v := by
  induction m with
  | nil => simp [hinsert, hlookup]
  | cons kv rest ih =>
    obtain ⟨k', v'⟩ := kv
    by_cases h : k' = k
    · simp [hinsert, h, hlookup]
    · simp [hinsert, h, hlookup, ih]

theorem hlookup_hinsert_ne {q k : List Char} (h : q ≠ k) (m : HMap) (v : List Char) :
    hlookup q (hinsert m k v) = hlookup q m := by
  induction m with
  | nil =>
    have hk : (k = q) = False := eq_false (fun hh => h hh.symm)
    simp [hinsert, hlookup, hk]
  | cons kv rest ih =>
    obtain ⟨k', v'⟩ := kv
    by_cases h' : k' = k
    · subst h'
      have hk : (k' = q) = False := eq_false (fun hh => h hh.symm)
      simp [hinsert, hlookup, hk]
    · simp [hinsert, h', hlookup, ih]

theorem hinsert_of_not_mem {k : List Char} {m : HMap}
    (h : k ∉ m.map Prod.fst) (v : List Char) :
    hinsert m k v = m ++ [(k, v)] := by
  induction m with
  | nil => rfl
  | cons kv rest ih =>
    obtain ⟨k', v'⟩ := kv
    simp only [List.map_cons, List.mem_cons] at h
    push_neg at h
    have hk : (k' = k) = False := eq_false (fun hh => h.1 hh.symm)
    simp [hinsert, hk, ih h.2]

theorem mem_hinsert {kv : List Char × List Char} {m : HMap} {k v : List Char}
    (h : kv ∈ hinsert m k v) : kv ∈ m ∨ kv = (k, v) := by
  induction m with
  | nil => simp [hinsert] at h; simp [h]
  | cons kv' rest ih =>
    obtain ⟨k', v'⟩ := kv'
    by_cases h' : k' = k
    · subst h'
      simp only [hinsert, if_true] at h
      rcases List.mem_cons.mp h with h1 | h1
      · right; rw [h1]
      · left; exact List.mem_cons_of_mem _ h1
    · simp only [hinsert, h', if_false] at h
      rcases List.mem_cons.mp h with h1 | h1
      · left; simp [h1]
      · rcases ih h1 with h2 | h2
        · left; exact List.mem_cons_of_mem _ h2
        · right; exact h2

theorem nodup_map_fst_hinsert {m : HMap} (hm : (m.map Prod.fst).Nodup)
    (k v : List Char) : ((hinsert m k v).map Prod.fst).Nodup := by
  induction m with
  | nil => simp [hinsert]
  | cons kv rest ih =>
    obtain ⟨k', v'⟩ := kv
    simp only [List.map_cons, List.nodup_cons] at hm
    by_cases h : k' = k
    · simp only [hinsert, h, if_true, List.map_cons, List.nodup_cons]
      exact ⟨h ▸ hm.1, hm.2⟩
    · simp only [hinsert, h, if_false, List.map_cons, List.nodup_cons]
      refine ⟨?_, ih hm.2⟩
      intro hmem
      rcases List.mem_map.mp hmem with ⟨kv2, hkv2, hfst⟩
      rcases mem_hinsert hkv2 with h2 | h2
      · exact hm.1 (hfst ▸ List.mem_map_of_mem Prod.fst h2)
      · rw [h2] at hfst
        exact h hfst.symm

/-! Serialization of responses. -/

theorem foldl_append_eq_flatten {α β : Type} (f : α → List β) (l : List α)
    (acc : List β) :
    l.foldl (fun a x => a ++ f x) acc = acc ++ (l.map f).flatten := by
  induction l generalizing acc with
  | nil => simp
  | cons x xs ih => simp [ih, List.append_assoc]

/-- C10: for every response value, `HttpResponse::to_bytes` emits the
    literal version string `HTTP/1.1` in the status line regardless of
    any request's version (`HttpResponse` carries no version field); the
    output is always `HTTP/1.1 <code> <text>` CRLF, the header lines, a
    blank line, then the body bytes. -/
theorem c10_to_bytes_format (r : HttpResponse) :
    r.to_bytes
      = "HTTP/1.1 ".toList ++ natDec r.status_code ++ ' ' :: r.status_text
          ++ crlf ++ (r.headers.map headerLineBytes).flatten ++ crlf ++ r.body := by
  unfold HttpResponse.to_bytes
  dsimp only
  rw [foldl_append_eq_flatten]

/-! Thread-pool teardown. -/

/-- C5 (evaluation of the failing teardown): the `drop(&self.sender)`
    line of `ThreadPool::drop` drops a shared reference, not the
    `Sender`, so the channel of an idle pool stays open and a worker's
    blocking `recv` never observes closure — the subsequent
    `thread.join()` calls wait forever and teardown never leaves zero
    running workers.  Dropping the `Sender` value itself (what the
    source comment and the spec describe) would close the channel. -/
theorem c5_drop_does_not_close_channel :
    channelClosed (dropSenderRef idlePoolChannel) = false ∧
    recvObservesClosure (dropSenderRef idlePoolChannel) = false ∧
    recvObservesClosure (dropSenderValue idlePoolChannel) = true := by
  decide

/-! Middleware chain. -/

theorem runMiddlewares_append (xs ys : List Middleware) (req : Request)
    (resp : HttpResponse) :
    runMiddlewares (xs ++ ys) req resp =
      match runMiddlewares xs req resp with
      | (true, r) => (true, r)
      | (false, r) => runMiddlewares ys req r := by
  induction xs generalizing resp with
  | nil => simp [runMiddlewares]
  | cons mw xs ih =>
    simp only [List.cons_append, runMiddlewares]
    cases hmw : mw req resp with
    | mk res r =>
      cases res
      · exact ih r
      · rfl

/-- C3: if some middleware in the registration-order chain returns
    `Stop`, then `Router::handle` returns exactly the response value as
    of that `Stop` point, and no later middleware, no route handler and
    no not-found handler executes (the result is the same for every
    choice of later middlewares, routes and not-found handler). -/
theorem c3_middleware_stop (hr : HttpRequest) (pre : List Middleware)
    (mw : Middleware) (resp1 resp2 : HttpResponse)
    (hpre : runMiddlewares pre (initRequest hr) defaultResponse = (false, resp1))
    (hstop : mw (initRequest hr) resp1 = (MiddlewareResult.Stop, resp2)) :
    ∀ (post : List Middleware) (routes : List Route) (nfh : Option Handler),
      Router.handle { routes := routes, middlewares := pre ++ mw :: post,
                      not_found_handler := nfh } hr = resp2 := by
  intro post routes nfh
  have hrun : runMiddlewares (pre ++ mw :: post) (initRequest hr) defaultResponse
      = (true, resp2) := by
    rw [runMiddlewares_append, hpre]
    simp [runMiddlewares, hstop]
  unfold Router.handle
  simp only [hrun]

/-! Route dispatch. -/

theorem findRoute_append_fail {rs1 : List Route} {req : Request}
    (h : ∀ r ∈ rs1, routeFails r req) (rs : List Route) :
    findRoute (rs1 ++ rs) req = findRoute rs req := by
  induction rs1 with
  | nil => rfl
  | cons r0 rs1 ih =>
    have h0 := h r0 (List.mem_cons_self _ _)
    simp only [List.cons_append, findRoute]
    rcases h0 with h0 | h0
    · rw [if_pos h0]
      exact ih (fun r hr => h r (List.mem_cons_of_mem _ hr))
    · by_cases hm : r0.method ≠ req.method
      · rw [if_pos hm]
        exact ih (fun r hr => h r (List.mem_cons_of_mem _ hr))
      · rw [if_neg hm, h0]
        exact ih (fun r hr => h r (List.mem_cons_of_mem _ hr))

/-- C4: with no middleware stopping the chain, routes are tried in
    registration order; the first route with the request's method and a
    matching pattern wins, its parameter bindings are installed on the
    request and its handler produces the final response; with no
    matching route the registered not-found handler is invoked when
    present, and otherwise the fixed generic 404 response with body
    `{"error": "Not Found"}` is returned. -/
theorem c4_route_dispatch (hr : HttpRequest) (mws : List Middleware)
    (resp1 : HttpResponse)
    (hnostop : runMiddlewares mws (initRequest hr) defaultResponse = (false, resp1)) :
    (∀ (rs1 rs2 : List Route) (route : Route) (params : HMap)
        (nfh : Option Handler),
      (∀ r ∈ rs1, routeFails r (initRequest hr)) →
      route.method = (initRequest hr).method →
      match_path route.pattern route.param_names (initRequest hr).path
        = some params →
      Router.handle { routes := rs1 ++ route :: rs2, middlewares := mws,
                      not_found_handler := nfh } hr
        = route.handler { initRequest hr with params := params }) ∧
    (∀ (routes : List Route) (h : Handler),
      (∀ r ∈ routes, routeFails r (initRequest hr)) →
      Router.handle { routes := routes, middlewares := mws,
                      not_found_handler := some h } hr = h (initRequest hr)) ∧
    (∀ (routes : List Route),
      (∀ r ∈ routes, routeFails r (initRequest hr)) →
      Router.handle { routes := routes, middlewares := mws,
                      not_found_handler := none } hr
          = HttpResponse.notFound notFoundBody ∧
        (HttpResponse.notFound notFoundBody).status_code = 404) := by
  refine ⟨?_, ?_, ?_⟩
  · intro rs1 rs2 route params nfh hfail hmeth hmatch
    have hfind : findRoute (rs1 ++ route :: rs2) (initRequest hr)
        = some (route, params) := by
      rw [findRoute_append_fail hfail]
      simp only [findRoute, hmeth, ne_eq, not_true_eq_false, if_false, hmatch]
    unfold Router.handle
    simp only [hnostop, hfind]
  · intro routes hnd hfail
    have hfind : findRoute routes (initRequest hr) = none := by
      have h0 := findRoute_append_fail hfail ([] : List Route)
      rw [List.append_nil] at h0
      exact h0.trans rfl
    unfold Router.handle
    simp only [hnostop, hfind]
  · intro routes hfail
    have hfind : findRoute routes (initRequest hr) = none := by
      have h0 := findRoute_append_fail hfail ([] : List Route)
      rw [List.append_nil] at h0
      exact h0.trans rfl
    constructor
    · unfold Router.handle
      simp only [hnostop, hfind]
    · rfl

instance (r : Route) (req : Request) : Decidable (routeFails r req) :=
  inferInstanceAs
    (Decidable (r.method ≠ req.method
      ∨ match_path r.pattern r.param_names req.path = none))

/-- Request used by the concrete middleware witness. -/
def wreq : HttpRequest :=
  { method := "GET".toList, path := "/w".toList, version := "HTTP/1.1".toList,
    headers := [], body := [] }

/-- Witness for C3: a concrete router whose first middleware stops the
    chain returns the response as of the stop point. -/
theorem c3_witness :
    Router.handle
      { routes := [],
        middlewares := [fun _ resp => (MiddlewareResult.Stop, resp)],
        not_found_handler := none } wreq = defaultResponse :=
  c3_middleware_stop wreq [] (fun _ resp => (MiddlewareResult.Stop, resp))
    defaultResponse defaultResponse rfl rfl [] [] none

/-- Non-matching route used by the concrete dispatch witness. -/
def wRouteA : Route :=
  { method := "GET".toList, pattern := "/a".toList,
    param_names := extract_param_names ( "/a".toList),
    handler := fun _ => HttpResponse.ok [] }

/-- Matching parameterized route used by the concrete dispatch witness. -/
def wRouteUsers : Route :=
  { method := "GET".toList, pattern := "/users/:id".toList,
    param_names := extract_param_names ( "/users/:id".toList),
    handler := fun req => HttpResponse.ok ((hlookup ( "id".toList) req.params).getD []) }

/-- Request used by the concrete dispatch witness. -/
def wreqUsers : HttpRequest :=
  { method := "GET".toList, path := "/users/7".toList,
    version := "HTTP/1.1".toList, headers := [], body := [] }

/-- Witness for C4: concrete registration-order dispatch with a bound
    path parameter reaching the winning handler. -/
theorem c4_witness :
    Router.handle { routes := [wRouteA, wRouteUsers], middlewares := [],
                    not_found_handler := none } wreqUsers
      = HttpResponse.ok ( "7".toList) := by
  have h := (c4_route_dispatch wreqUsers [] defaultResponse rfl).1
    [wRouteA] [] wRouteUsers [( "id".toList, "7".toList)] none
    (by decide) (by decide) (by decide)
  rw [show ([wRouteA] ++ wRouteUsers :: ([] : List Route))
        = [wRouteA, wRouteUsers] from rfl] at h
  rw [h]
  rfl

/-! Request parsing: request line, headers, body. -/

theorem parseAfterHeaders_not3 {rl : List Char}
    (h : (splitWhitespace rl).length ≠ 3) (hls : List (List Char))
    (rest : List Char) :
    parseAfterHeaders rl hls rest = .err .invalidData := by
  unfold parseAfterHeaders
  split
  · rename_i m p v heq
    rw [heq] at h
    simp at h
  · rfl

theorem parseAfterHeaders_three {rl m p v : List Char}
    (h : splitWhitespace rl = [m, p, v]) (hls : List (List Char))
    (rest : List Char) :
    parseAfterHeaders rl hls rest =
      match readBody (buildHeaders hls) rest with
      | .ok (body, leftover) =>
        .ok { method := m, path := p, version := v,
              headers := buildHeaders hls, body := body } leftover
      | .error e => .err e := by
  unfold parseAfterHeaders
  rw [h]

/-- C8: an input whose first header-section line does not split into
    exactly three whitespace-separated tokens makes `HttpRequest::parse`
    fail with `InvalidData`; no request value is returned. -/
theorem c8_invalid_request_line (input l0 : List Char) (hls : List (List Char))
    (rest : List Char)
    (hread : readHeaderLines input = some (l0 :: hls, rest))
    (htok : (splitWhitespace l0).length ≠ 3) :
    HttpRequest.parse input = .err .invalidData := by
  unfold HttpRequest.parse
  rw [hread]
  exact parseAfterHeaders_not3 htok hls rest

/-- Witness for C8: a two-token request line is rejected. -/
theorem c8_witness :
    HttpRequest.parse ( "GET /bad\r\n\r\n".toList) = .err .invalidData :=
  c8_invalid_request_line _ ( "GET /bad".toList) [] [] (by decide) (by decide)

theorem readBody_cl {headers : HMap} {cv : List Char}
    (hcl : hlookup clKey headers = some cv) (rest : List Char) :
    readBody headers rest =
      match parseUsize cv with
      | some n =>
        match readExact n rest with
        | some (b, r) => .ok (b, r)
        | none => .error .unexpectedEof
      | none => .ok ([], rest) := by
  unfold readBody
  rw [hcl]

theorem readBody_cl_n {headers : HMap} {cv : List Char} {n : Nat}
    (hcl : hlookup clKey headers = some cv) (hn : parseUsize cv = some n)
    (rest : List Char) :
    readBody headers rest =
      match readExact n rest with
      | some (b, r) => .ok (b, r)
      | none => .error .unexpectedEof := by
  rw [readBody_cl hcl, hn]

/-- C9: a present but non-numeric (or negative) `content-length` value
    does not make `HttpRequest::parse` fail: the request is returned
    with an empty body, the malformed header still present, and the
    stream is not consumed past the blank line. -/
theorem c9_malformed_content_length (input l0 : List Char)
    (hls : List (List Char)) (rest cv m p v : List Char)
    (hread : readHeaderLines input = some (l0 :: hls, rest))
    (hsw : splitWhitespace l0 = [m, p, v])
    (hcl : hlookup clKey (buildHeaders hls) = some cv)
    (hbad : parseUsize cv = none) :
    HttpRequest.parse input
        = .ok { method := m, path := p, version := v,
                headers := buildHeaders hls, body := [] } rest ∧
      hlookup clKey (buildHeaders hls) = some cv := by
  refine ⟨?_, hcl⟩
  unfold HttpRequest.parse
  rw [hread]
  show parseAfterHeaders l0 hls rest = _
  rw [parseAfterHeaders_three hsw, readBody_cl hcl, hbad]

/-- Witness for C9: `content-length: abc` yields an empty body and the
    header survives. -/
theorem c9_witness :
    HttpRequest.parse ( "GET /x HTTP/1.1\r\ncontent-length: abc\r\n\r\nZZ".toList)
        = .ok { method := "GET".toList, path := "/x".toList,
                version := "HTTP/1.1".toList,
                headers := [( "content-length".toList, "abc".toList)],
                body := [] } ( "ZZ".toList) ∧
      hlookup clKey [( "content-length".toList, "abc".toList)]
        = some ( "abc".toList) := by
  have h := c9_malformed_content_length
    ( "GET /x HTTP/1.1\r\ncontent-length: abc\r\n\r\nZZ".toList)
    ( "GET /x HTTP/1.1".toList) [ "content-length: abc".toList]
    ( "ZZ".toList) ( "abc".toList)
    ( "GET".toList) ( "/x".toList) ( "HTTP/1.1".toList)
    (by decide) (by decide) (by decide) (by decide)
  exact ⟨h.1.trans (by decide), by decide⟩

/-- C6: when a `content-length` header is present and parses as a
    non-negative integer `n`, `HttpRequest::parse` reads exactly `n`
    bytes as the body (leaving the rest of the stream unread), and when
    the connection closes before `n` bytes are available it returns an
    I/O error. -/
theorem c6_content_length_framing (input l0 : List Char)
    (hls : List (List Char)) (rest cv m p v : List Char) (n : Nat)
    (hread : readHeaderLines input = some (l0 :: hls, rest))
    (hsw : splitWhitespace l0 = [m, p, v])
    (hcl : hlookup clKey (buildHeaders hls) = some cv)
    (hn : parseUsize cv = some n) :
    (n ≤ rest.length →
      HttpRequest.parse input
          = .ok { method := m, path := p, version := v,
                  headers := buildHeaders hls, body := rest.take n }
              (rest.drop n) ∧
        (rest.take n).length = n) ∧
    (rest.length < n → HttpRequest.parse input = .err .unexpectedEof) := by
  have hparse : HttpRequest.parse input =
      match readBody (buildHeaders hls) rest with
      | .ok (body, leftover) =>
        .ok { method := m, path := p, version := v,
              headers := buildHeaders hls, body := body } leftover
      | .error e => .err e := by
    unfold HttpRequest.parse
    rw [hread]
    exact parseAfterHeaders_three hsw hls rest
  constructor
  · intro hle
    have hre : readExact n rest = some (rest.take n, rest.drop n) := by
      unfold readExact
      rw [if_pos hle]
    constructor
    · rw [hparse, readBody_cl_n hcl hn, hre]
    · rw [List.length_take]
      exact Nat.min_eq_left hle
  · intro hlt
    have hre : readExact n rest = none := by
      unfold readExact
      rw [if_neg (by omega)]
    rw [hparse, readBody_cl_n hcl hn, hre]

/-- Witness for C6: `content-length: 3` reads exactly the three body
    bytes and leaves the remainder unread. -/
theorem c6_witness :
    HttpRequest.parse ( "POST /u HTTP/1.1\r\nContent-Length: 3\r\n\r\nabcXY".toList)
        = .ok { method := "POST".toList, path := "/u".toList,
                version := "HTTP/1.1".toList,
                headers := [( "content-length".toList, "3".toList)],
                body := "abc".toList } ( "XY".toList) := by
  have h := (c6_content_length_framing
    ( "POST /u HTTP/1.1\r\nContent-Length: 3\r\n\r\nabcXY".toList)
    ( "POST /u HTTP/1.1".toList) [ "Content-Length: 3".toList]
    ( "abcXY".toList) ( "3".toList)
    ( "POST".toList) ( "/u".toList) ( "HTTP/1.1".toList) 3
    (by decide) (by decide) (by decide) (by decide)).1 (by decide)
  exact h.1.trans (by decide)

/-- C7: a header line is split on its first colon, the key is stored
    trimmed and lowercased, the value trimmed; a later line with the
    same normalized key overwrites (last occurrence wins) and leaves
    every other key unchanged; a line with no colon changes nothing. -/
theorem c7_header_line_processing (ls : List (List Char)) (line k0 v0 : List Char) :
    (splitOnce ':' line = some (k0, v0) →
      buildHeaders (ls ++ [line])
          = hinsert (buildHeaders ls) (toLowerStr (trim k0)) (trim v0) ∧
      hlookup (toLowerStr (trim k0)) (buildHeaders (ls ++ [line]))
          = some (trim v0) ∧
      ∀ k, k ≠ toLowerStr (trim k0) →
        hlookup k (buildHeaders (ls ++ [line])) = hlookup k (buildHeaders ls)) ∧
    (splitOnce ':' line = none →
      buildHeaders (ls ++ [line]) = buildHeaders ls) := by
  have hfold : buildHeaders (ls ++ [line]) = headerStep (buildHeaders ls) line := by
    unfold buildHeaders
    rw [List.foldl_append]
    rfl
  constructor
  · intro hsp
    have hstep : headerStep (buildHeaders ls) line
        = hinsert (buildHeaders ls) (toLowerStr (trim k0)) (trim v0) := by
      unfold headerStep
      rw [hsp]
    rw [hfold, hstep]
    exact ⟨rfl, hlookup_hinsert_self _ _ _,
      fun k hk => hlookup_hinsert_ne hk _ _⟩
  · intro hsp
    rw [hfold]
    unfold headerStep
    rw [hsp]

/-- Witness for C7: a duplicate key (after trimming and lowercasing)
    overwrites, and an unrelated key survives. -/
theorem c7_witness :
    hlookup ( "x-tag".toList)
        (buildHeaders [ "Host: h".toList, "X-Tag: 1".toList,
                        " x-TAG :  2 ".toList])
        = some ( "2".toList) ∧
      hlookup ( "host".toList)
        (buildHeaders [ "Host: h".toList, "X-Tag: 1".toList,
                        " x-TAG :  2 ".toList])
        = some ( "h".toList) := by
  have h := (c7_header_line_processing
    [ "Host: h".toList, "X-Tag: 1".toList] ( " x-TAG :  2 ".toList)
    ( " x-TAG ".toList) ( "  2 ".toList)).1 (by decide)
  have e1 : toLowerStr (trim ( " x-TAG ".toList)) = "x-tag".toList := by decide
  have e2 : trim ( "  2 ".toList) = "2".toList := by decide
  have h2 := h.2.1
  have h3 := h.2.2 ( "host".toList) (by decide)
  rw [e1, e2] at h2
  exact ⟨h2, h3.trans (by decide)⟩

/-! Path matching. -/

theorem getD_of_drop_eq_cons {α : Type} {l : List α} {i : Nat} {a : α}
    {t : List α} (h : l.drop i = a :: t) (d : α) : l.getD i d = a := by
  induction l generalizing i with
  | nil => simp at h
  | cons x xs ih =>
    cases i with
    | zero =>
      simp only [List.drop_zero] at h
      rw [h]
      rfl
    | succ i =>
      rw [List.drop_succ_cons] at h
      rw [List.getD_cons_succ]
      exact ih h

theorem drop_succ_of_drop_eq_cons {α : Type} {l : List α} {i : Nat} {a : α}
    {t : List α} (h : l.drop i = a :: t) : l.drop (i + 1) = t := by
  rw [← List.tail_drop, h]
  rfl

theorem lt_length_of_drop_eq_cons {α : Type} {l : List α} {i : Nat} {a : α}
    {t : List α} (h : l.drop i = a :: t) : i < l.length := by
  by_contra hge
  push_neg at hge
  rw [List.drop_eq_nil_of_le hge] at h
  exact List.noConfusion h

theorem matchSegsAux_spec (names : List (List Char)) (ps : List (List Char)) :
    ∀ (qs : List (List Char)) (i : Nat) (acc : HMap),
      ps.length = qs.length →
      names.drop i = (ps.filter isParamSeg).map List.tail →
      matchSegsAux names ps qs i acc =
        if litMatch ps qs then
          some ((paramBindings ps qs).foldl (fun a kv => hinsert a kv.1 kv.2) acc)
        else none := by
  induction ps with
  | nil =>
    intro qs i acc hlen hdrop
    cases qs with
    | nil => simp [matchSegsAux, litMatch, paramBindings]
    | cons q qs => simp at hlen
  | cons p ps ih =>
    intro qs i acc hlen hdrop
    cases qs with
    | nil => simp at hlen
    | cons q qs =>
      simp only [List.length_cons] at hlen
      have hlen' : ps.length = qs.length := Nat.succ_injective hlen
      by_cases hp : isParamSeg p = true
      · rw [List.filter_cons_of_pos hp, List.map_cons] at hdrop
        have hi : names.getD i [] = p.tail := getD_of_drop_eq_cons hdrop []
        have hlt : i < names.length := lt_length_of_drop_eq_cons hdrop
        have hdrop' : names.drop (i + 1) = (ps.filter isParamSeg).map List.tail :=
          drop_succ_of_drop_eq_cons hdrop
        have hstep : matchSegsAux names (p :: ps) (q :: qs) i acc
            = matchSegsAux names ps qs (i + 1)
                (hinsert acc (names.getD i []) q) := by
          rw [matchSegsAux, if_pos hp, if_pos hlt]
        rw [hstep, hi, ih qs (i + 1) (hinsert acc p.tail q) hlen' hdrop']
        have hlm : litMatch (p :: ps) (q :: qs) = litMatch ps qs := by
          simp [litMatch, hp]
        have hpb : paramBindings (p :: ps) (q :: qs)
            = (p.tail, q) :: paramBindings ps qs := by
          rw [paramBindings, if_pos hp]
        rw [hlm, hpb, List.foldl_cons]
      · rw [List.filter_cons_of_neg hp] at hdrop
        have hpb : paramBindings (p :: ps) (q :: qs) = paramBindings ps qs := by
          rw [paramBindings, if_neg hp]
        by_cases hpq : p = q
        · have hstep : matchSegsAux names (p :: ps) (q :: qs) i acc
              = matchSegsAux names ps qs i acc := by
            rw [matchSegsAux, if_neg hp, if_pos hpq]
          have hlm : litMatch (p :: ps) (q :: qs) = litMatch ps qs := by
            subst hpq
            simp [litMatch, hp]
          rw [hstep, hlm, hpb, ih qs i acc hlen' hdrop]
        · have hstep : matchSegsAux names (p :: ps) (q :: qs) i acc = none := by
            rw [matchSegsAux, if_neg hp, if_neg hpq]
          have hlm : litMatch (p :: ps) (q :: qs) = false := by
            have : (p == q) = false := by
              exact beq_eq_false_iff_ne.mpr hpq
            simp [litMatch, hp, this]
          rw [hstep, hlm]
          rfl

theorem litMatch_iff (ps : List (List Char)) :
    ∀ qs : List (List Char), ps.length = qs.length →
      (litMatch ps qs = true ↔
        ∀ i, i < ps.length → isParamSeg (ps.getD i []) = false →
          ps.getD i [] = qs.getD i []) := by
  induction ps with
  | nil =>
    intro qs h
    cases qs with
    | nil => simp [litMatch]
    | cons q qs => simp at h
  | cons p ps ih =>
    intro qs h
    cases qs with
    | nil => simp at h
    | cons q qs =>
      simp only [List.length_cons] at h
      have h' : ps.length = qs.length := Nat.succ_injective h
      constructor
      · intro hl i hi hlit
        simp only [litMatch, Bool.and_eq_true] at hl
        cases i with
        | zero =>
          simp only [List.getD_cons_zero] at hlit ⊢
          have h0 := hl.1
          rw [hlit] at h0
          simp only [Bool.false_or] at h0
          exact eq_of_beq h0
        | succ i =>
          simp only [List.getD_cons_succ] at hlit ⊢
          exact (ih qs h').mp hl.2 i (Nat.lt_of_succ_lt_succ hi) hlit
      · intro hall
        simp only [litMatch, Bool.and_eq_true]
        constructor
        · by_cases hp : isParamSeg p = true
          · simp [hp]
          · have hp' : isParamSeg p = false := Bool.not_eq_true _ ▸ eq_false_of_ne_true hp
            have h0 := hall 0 (Nat.succ_pos _)
              (by simpa only [List.getD_cons_zero] using hp')
            simp only [List.getD_cons_zero] at h0
            simp [hp', h0]
        · exact (ih qs h').mpr
            (fun i hi hl => hall (i + 1) (Nat.succ_lt_succ hi)
              (by simpa only [List.getD_cons_succ] using hl))

/-- C2: for every pattern/path pair with equal segment counts,
    `match_path` succeeds iff every non-parameter (literal) pattern
    segment equals the path segment at the same position; on success
    each parameter segment binds the corresponding path segment
    positionally, left to right, to the declared parameter names; the
    pattern `/users/:id/posts/:post_id` with path `/users/123/posts/456`
    yields parameters `id = 123` and `post_id = 456`; and unequal
    segment counts never match. -/
theorem c2_match_path (pattern path : List Char) :
    ((splitSep '/' pattern).length = (splitSep '/' path).length →
      ((match_path pattern (extract_param_names pattern) path).isSome = true ↔
        ∀ i, i < (splitSep '/' pattern).length →
          isParamSeg ((splitSep '/' pattern).getD i []) = false →
          (splitSep '/' pattern).getD i [] = (splitSep '/' path).getD i []) ∧
      (∀ m, match_path pattern (extract_param_names pattern) path = some m →
        m = (paramBindings (splitSep '/' pattern) (splitSep '/' path)).foldl
              (fun a kv => hinsert a kv.1 kv.2) [])) ∧
    ((splitSep '/' pattern).length ≠ (splitSep '/' path).length →
      match_path pattern (extract_param_names pattern) path = none) ∧
    match_path ( "/users/:id/posts/:post_id".toList)
        (extract_param_names ( "/users/:id/posts/:post_id".toList))
        ( "/users/123/posts/456".toList)
      = some [( "id".toList, "123".toList), ( "post_id".toList, "456".toList)] := by
  refine ⟨?_, ?_, by decide⟩
  · intro hlen
    have hmp : match_path pattern (extract_param_names pattern) path
        = if litMatch (splitSep '/' pattern) (splitSep '/' path) then
            some ((paramBindings (splitSep '/' pattern) (splitSep '/' path)).foldl
              (fun a kv => hinsert a kv.1 kv.2) [])
          else none := by
      unfold match_path
      dsimp only
      rw [if_neg (not_not_intro hlen)]
      exact matchSegsAux_spec (extract_param_names pattern) _ _ 0 [] hlen rfl
    constructor
    · rw [hmp]
      by_cases hl : litMatch (splitSep '/' pattern) (splitSep '/' path) = true
      · simp only [hl, if_true, Option.isSome_some, true_iff]
        exact (litMatch_iff _ _ hlen).mp hl
      · have hl' : litMatch (splitSep '/' pattern) (splitSep '/' path) = false :=
          eq_false_of_ne_true hl
        rw [if_neg (by simp [hl'])]
        rw [Option.isSome_none]
        constructor
        · intro hc
          exact absurd hc (by decide)
        · intro hall
          exact absurd ((litMatch_iff _ _ hlen).mpr hall) hl
    · intro m hm
      rw [hmp] at hm
      by_cases hl : litMatch (splitSep '/' pattern) (splitSep '/' path) = true
      · rw [if_pos hl] at hm
        exact (Option.some.injEq _ _ ▸ hm).symm
      · rw [if_neg hl] at hm
        exact absurd hm (by simp)
  · intro hne
    unfold match_path
    dsimp only
    rw [if_pos hne]

/-- Witness for C2: a literal-segment mismatch with equal counts never
    matches, and the two-parameter example binds both parameters. -/
theorem c2_witness :
    match_path ( "/users/:id".toList) (extract_param_names ( "/users/:id".toList))
        ( "/posts/123".toList) = none ∧
    match_path ( "/users/:id/posts/:post_id".toList)
        (extract_param_names ( "/users/:id/posts/:post_id".toList))
        ( "/users/123/posts/456".toList)
      = some [( "id".toList, "123".toList), ( "post_id".toList, "456".toList)] := by
  constructor
  · have h := ((c2_match_path ( "/users/:id".toList) ( "/posts/123".toList)).1
      (by decide)).1
    have hno : ¬ (∀ i, i < (splitSep '/' ( "/users/:id".toList)).length →
        isParamSeg ((splitSep '/' ( "/users/:id".toList)).getD i []) = false →
        (splitSep '/' ( "/users/:id".toList)).getD i []
          = (splitSep '/' ( "/posts/123".toList)).getD i []) := by decide
    cases hmp : match_path ( "/users/:id".toList)
        (extract_param_names ( "/users/:id".toList)) ( "/posts/123".toList) with
    | none => rfl
    | some m =>
      exact absurd (h.mp (by rw [hmp]; rfl)) hno
  · exact (c2_match_path [] []).2.2

/-! Character-level facts about ASCII lowercasing and whitespace. -/

theorem char_ofNat_toNat {n : Nat} (h : Nat.isValidChar n) :
    (Char.ofNat n).toNat = n := by
  simp [Char.ofNat, h, Char.ofNatAux, Char.toNat, UInt32.toNat,
    BitVec.toNat_ofNatLt]

theorem char_toLower_cases (c : Char) :
    Char.toLower c = c ∨
      (97 ≤ (Char.toLower c).toNat ∧ (Char.toLower c).toNat ≤ 122 ∧
        65 ≤ c.toNat ∧ c.toNat ≤ 90) := by
  by_cases h : 65 ≤ c.toNat ∧ c.toNat ≤ 90
  · right
    have hv : Nat.isValidChar (c.toNat + 32) := Or.inl (by omega)
    have he : Char.toLower c = Char.ofNat (c.toNat + 32) := by
      simp only [Char.toLower]
      rw [if_pos ⟨h.1, h.2⟩]
    have ht : (Char.ofNat (c.toNat + 32)).toNat = c.toNat + 32 :=
      char_ofNat_toNat hv
    rw [he, ht]
    omega
  · left
    simp only [Char.toLower]
    rw [if_neg (fun hc => h ⟨hc.1, hc.2⟩)]

theorem toLower_eq_self {c : Char} (h : ¬(65 ≤ c.toNat ∧ c.toNat ≤ 90)) :
    Char.toLower c = c := by
  simp only [Char.toLower]
  rw [if_neg (fun hc => h ⟨hc.1, hc.2⟩)]

theorem toLower_eq_of_small {c d : Char} (hd : d.toNat < 97)
    (h : Char.toLower c = d) : c = d := by
  rcases char_toLower_cases c with h' | ⟨h1, _, _, _⟩
  · rw [← h', h]
  · rw [h] at h1
    omega

theorem isWS_eq_false_of_toNat {c : Char} (h1 : 33 ≤ c.toNat) :
    isWS c = false := by
  unfold isWS Char.isWhitespace
  have hs : c ≠ ' ' := fun h => by subst h; exact absurd h1 (by decide)
  have ht : c ≠ '\t' := fun h => by subst h; exact absurd h1 (by decide)
  have hr : c ≠ '\x0d' := fun h => by subst h; exact absurd h1 (by decide)
  have hn : c ≠ '\n' := fun h => by subst h; exact absurd h1 (by decide)
  simp [hs, ht, hr, hn]

theorem isWS_toLower (c : Char) : isWS (Char.toLower c) = isWS c := by
  rcases char_toLower_cases c with h | ⟨h1, _, h3, _⟩
  · rw [h]
  · rw [isWS_eq_false_of_toNat (by omega),
      isWS_eq_false_of_toNat (c := c) (by omega)]

theorem toLower_idem (c : Char) :
    Char.toLower (Char.toLower c) = Char.toLower c := by
  rcases char_toLower_cases c with h | ⟨h1, h2, _, _⟩
  · rw [h, h]
  · exact toLower_eq_self (by omega)

theorem toLowerStr_idem (s : List Char) :
    toLowerStr (toLowerStr s) = toLowerStr s := by
  induction s with
  | nil => rfl
  | cons c cs ih =>
    simp only [toLowerStr, List.map_cons] at ih ⊢
    rw [toLower_idem, ih]

theorem mem_toLowerStr_small {s : List Char} {d : Char} (hd : d.toNat < 97)
    (h : d ∈ toLowerStr s) : d ∈ s := by
  rcases List.mem_map.mp h with ⟨c, hc, hlc⟩
  rw [← toLower_eq_of_small hd hlc]
  exact hc

/-! Trimming machinery. -/

theorem dropWhile_append_all {p : Char → Bool} {u : List Char}
    (hu : ∀ c ∈ u, p c = true) (v : List Char) :
    (u ++ v).dropWhile p = v.dropWhile p := by
  induction u with
  | nil => rfl
  | cons c u ih =>
    rw [List.cons_append, List.dropWhile_cons,
      if_pos (hu c (List.mem_cons_self _ _))]
    exact ih (fun x hx => hu x (List.mem_cons_of_mem _ hx))

theorem trimEnd_append_ws {t : List Char} (ht : ∀ c ∈ t, isWS c = true)
    (s : List Char) : trimEnd (s ++ t) = trimEnd s := by
  unfold trimEnd
  rw [List.reverse_append,
    dropWhile_append_all (fun c hc => ht c (List.mem_reverse.mp hc))]

theorem trimEnd_append_nonws {c : Char} (hc : isWS c = false) (s : List Char) :
    trimEnd (s ++ [c]) = s ++ [c] := by
  have h1 : (s ++ [c]).reverse = c :: s.reverse := by simp
  unfold trimEnd
  rw [h1, List.dropWhile_cons, if_neg (by simp [hc])]
  simp

theorem trimEnd_pre (s : List Char) : trimEnd s <+: s := by
  have h := List.reverse_prefix.mpr (List.dropWhile_suffix (l := s.reverse) isWS)
  rw [List.reverse_reverse] at h
  exact h

theorem mem_of_mem_trimEnd {c : Char} {s : List Char} (h : c ∈ trimEnd s) :
    c ∈ s :=
  (trimEnd_pre s).sublist.subset h

theorem mem_of_mem_trimStart {c : Char} {s : List Char} (h : c ∈ trimStart s) :
    c ∈ s :=
  (List.dropWhile_sublist isWS).subset h

theorem mem_of_mem_trim {c : Char} {s : List Char} (h : c ∈ trim s) : c ∈ s :=
  mem_of_mem_trimStart (mem_of_mem_trimEnd h)

theorem dropWhile_headNotWS (s : List Char) :
    headNotWS (s.dropWhile isWS) = true := by
  induction s with
  | nil => rfl
  | cons c cs ih =>
    rw [List.dropWhile_cons]
    by_cases h : isWS c = true
    · rw [if_pos h]
      exact ih
    · rw [if_neg h]
      unfold headNotWS
      simp [Bool.not_eq_true] at h
      simp [h]

theorem trimStart_eq_self {s : List Char} (h : headNotWS s = true) :
    trimStart s = s := by
  cases s with
  | nil => rfl
  | cons c cs =>
    unfold headNotWS at h
    unfold trimStart
    rw [List.dropWhile_cons, if_neg (by simp at h; simp [h])]

theorem trimEnd_eq_self {s : List Char} (h : headNotWS s.reverse = true) :
    trimEnd s = s := by
  unfold trimEnd
  have := trimStart_eq_self h
  unfold trimStart at this
  rw [this, List.reverse_reverse]

theorem trimEnd_rev_headNotWS (s : List Char) :
    headNotWS (trimEnd s).reverse = true := by
  unfold trimEnd
  rw [List.reverse_reverse]
  exact dropWhile_headNotWS _

theorem trimEnd_headNotWS {s : List Char} (h : headNotWS s = true) :
    headNotWS (trimEnd s) = true := by
  cases s with
  | nil => rfl
  | cons c cs =>
    cases hte : trimEnd (c :: cs) with
    | nil => rfl
    | cons d ds =>
      have hpre := trimEnd_pre (c :: cs)
      rw [hte] at hpre
      obtain ⟨t, ht⟩ := hpre
      rw [List.cons_append] at ht
      have hd : d = c := (List.cons.injEq _ _ _ _ ▸ ht).1
      unfold headNotWS at h ⊢
      rw [hd]
      exact h

theorem trim_headNotWS (s : List Char) : headNotWS (trim s) = true :=
  trimEnd_headNotWS (dropWhile_headNotWS s)

theorem trim_rev_headNotWS (s : List Char) :
    headNotWS (trim s).reverse = true :=
  trimEnd_rev_headNotWS _

theorem trim_eq_self_of {s : List Char} (h1 : headNotWS s = true)
    (h2 : headNotWS s.reverse = true) : trim s = s := by
  unfold trim
  rw [trimStart_eq_self h1, trimEnd_eq_self h2]

theorem trim_idem (s : List Char) : trim (trim s) = trim s :=
  trim_eq_self_of (trim_headNotWS s) (trim_rev_headNotWS s)

theorem trimEnd_idem (s : List Char) : trimEnd (trimEnd s) = trimEnd s :=
  trimEnd_eq_self (trimEnd_rev_headNotWS s)

theorem trim_eq_self_parts {v : List Char} (h : trim v = v) :
    trimStart v = v ∧ trimEnd v = v := by
  have h1 : (trimEnd (trimStart v)).length ≤ (trimStart v).length :=
    (trimEnd_pre _).length_le
  have h2 : (trimStart v).length ≤ v.length :=
    (List.dropWhile_sublist isWS).length_le
  have h3 : (trimEnd (trimStart v)).length = v.length := by
    unfold trim at h
    rw [h]
  have hts : trimStart v = v := by
    have hsub : List.Sublist (trimStart v) v := List.dropWhile_sublist isWS
    exact hsub.eq_of_length (by omega)
  refine ⟨hts, ?_⟩
  unfold trim at h
  rw [hts] at h
  exact h

theorem trimEnd_fix_rev_headNotWS {v : List Char} (h : trimEnd v = v) :
    headNotWS v.reverse = true := by
  have := trimEnd_rev_headNotWS v
  rw [h] at this
  exact this

theorem headNotWS_toLowerStr (s : List Char) :
    headNotWS (toLowerStr s) = headNotWS s := by
  cases s with
  | nil => rfl
  | cons c cs =>
    show (!isWS (Char.toLower c)) = (!isWS c)
    rw [isWS_toLower]

theorem headNotWS_append {a : List Char} (b : List Char) (ha : a ≠ [])
    (h : headNotWS a = true) : headNotWS (a ++ b) = true := by
  cases a with
  | nil => exact absurd rfl ha
  | cons c cs => exact h

/-! Colon splitting. -/

theorem splitOnce_append {k : List Char} (hk : ':' ∉ k) (t : List Char) :
    splitOnce ':' (k ++ ':' :: t) = some (k, t) := by
  induction k with
  | nil => simp [splitOnce]
  | cons c cs ih =>
    simp only [List.mem_cons] at hk
    push_neg at hk
    simp only [List.cons_append, splitOnce, List.append_eq]
    rw [if_neg (fun h => hk.1 h.symm), ih hk.2]

theorem splitOnce_inv {s k v : List Char} (h : splitOnce ':' s = some (k, v)) :
    ':' ∉ k ∧ s = k ++ ':' :: v := by
  induction s generalizing k v with
  | nil => simp [splitOnce] at h
  | cons c cs ih =>
    simp only [splitOnce] at h
    by_cases hc : c = ':'
    · rw [if_pos hc] at h
      simp only [Option.some.injEq, Prod.mk.injEq] at h
      refine ⟨?_, ?_⟩
      · rw [← h.1]
        simp
      · rw [← h.1, ← h.2, hc]
        rfl
    · rw [if_neg hc] at h
      cases hs : splitOnce ':' cs with
      | none =>
        rw [hs] at h
        exact Option.noConfusion h
      | some pr =>
        rw [hs] at h
        obtain ⟨a, b⟩ := pr
        simp only [Option.some.injEq, Prod.mk.injEq] at h
        obtain ⟨ha, hb⟩ := h
        obtain ⟨h1, h2⟩ := ih hs
        subst hb
        constructor
        · rw [← ha]
          intro hmem
          rcases List.mem_cons.mp hmem with h3 | h3
          · exact hc h3.symm
          · exact h1 h3
        · rw [← ha, h2]
          rfl

/-! Whitespace word splitting. -/

theorem splitWSAux_mem (s : List Char) :
    ∀ (acc : List Char), (∀ c ∈ acc, isWS c = false) →
      ∀ w ∈ splitWSAux acc s, w ≠ [] ∧ ∀ c ∈ w, isWS c = false := by
  induction s with
  | nil =>
    intro acc hacc w hw
    simp only [splitWSAux] at hw
    by_cases he : acc.isEmpty
    · rw [if_pos he] at hw
      simp at hw
    · rw [if_neg he] at hw
      simp only [List.mem_singleton] at hw
      subst hw
      refine ⟨?_, fun c hc => hacc c (List.mem_reverse.mp hc)⟩
      intro hnil
      rw [List.reverse_eq_nil_iff] at hnil
      rw [hnil] at he
      exact he rfl
  | cons c cs ih =>
    intro acc hacc w hw
    simp only [splitWSAux] at hw
    by_cases hc : isWS c = true
    · rw [if_pos hc] at hw
      rcases List.mem_append.mp hw with h1 | h1
      · by_cases he : acc.isEmpty
        · rw [if_pos he] at h1
          simp at h1
        · rw [if_neg he] at h1
          simp only [List.mem_singleton] at h1
          subst h1
          refine ⟨?_, fun x hx => hacc x (List.mem_reverse.mp hx)⟩
          intro hnil
          rw [List.reverse_eq_nil_iff] at hnil
          rw [hnil] at he
          exact he rfl
      · exact ih [] (by simp) w h1
    · rw [if_neg hc] at hw
      refine ih (c :: acc) ?_ w hw
      intro x hx
      rcases List.mem_cons.mp hx with h1 | h1
      · rw [h1]
        exact eq_false_of_ne_true hc
      · exact hacc x h1

theorem splitWSAux_word {w : List Char} (hw : ∀ c ∈ w, isWS c = false) :
    ∀ (acc s : List Char),
      splitWSAux acc (w ++ s) = splitWSAux (w.reverse ++ acc) s := by
  induction w with
  | nil =>
    intro acc s
    simp
  | cons c cs ih =>
    intro acc s
    have hc := hw c (List.mem_cons_self _ _)
    simp only [List.cons_append, splitWSAux, List.append_eq]
    rw [if_neg (by simp [hc])]
    rw [ih (fun x hx => hw x (List.mem_cons_of_mem _ hx)) (c :: acc) s]
    congr 1
    simp

theorem splitWhitespace_word_sep {w : List Char} (hw0 : w ≠ [])
    (hw : ∀ c ∈ w, isWS c = false) {c : Char} (hc : isWS c = true)
    (t : List Char) :
    splitWhitespace (w ++ c :: t) = w :: splitWhitespace t := by
  unfold splitWhitespace
  rw [splitWSAux_word hw [] (c :: t)]
  have hne : (w.reverse ++ []).isEmpty = false := by
    rw [List.append_nil]
    cases w with
    | nil => exact absurd rfl hw0
    | cons x xs => simp
  simp only [splitWSAux]
  rw [if_pos hc, hne]
  simp

theorem splitWhitespace_word_end {w : List Char} (hw0 : w ≠ [])
    (hw : ∀ c ∈ w, isWS c = false) :
    splitWhitespace w = [w] := by
  unfold splitWhitespace
  have h0 := splitWSAux_word hw [] []
  rw [List.append_nil] at h0
  rw [h0]
  have hne : (w.reverse ++ []).isEmpty = false := by
    rw [List.append_nil]
    cases w with
    | nil => exact absurd rfl hw0
    | cons x xs => simp
  simp only [splitWSAux]
  rw [hne]
  simp

theorem splitWhitespace_three {m p v : List Char}
    (hm0 : m ≠ []) (hm : ∀ c ∈ m, isWS c = false)
    (hp0 : p ≠ []) (hp : ∀ c ∈ p, isWS c = false)
    (hv0 : v ≠ []) (hv : ∀ c ∈ v, isWS c = false) :
    splitWhitespace (m ++ ' ' :: (p ++ ' ' :: v)) = [m, p, v] := by
  rw [splitWhitespace_word_sep hm0 hm (by decide),
      splitWhitespace_word_sep hp0 hp (by decide),
      splitWhitespace_word_end hv0 hv]

/-! Header-section reading. -/

theorem rhla_step_other {c : Char} (hc : ¬ c = '\n') (cur cs : List Char) :
    readHeaderLinesAux cur (c :: cs) = readHeaderLinesAux (c :: cur) cs := by
  conv_lhs => rw [readHeaderLinesAux]
  rw [if_neg hc]

theorem rhla_step_newline (cur cs : List Char) :
    readHeaderLinesAux cur ('\n' :: cs)
      = if (trimEnd (cur.reverse ++ ['\n'])).isEmpty then some ([], cs)
        else
          match readHeaderLinesAux [] cs with
          | none => none
          | some (ls, r) => some (trimEnd (cur.reverse ++ ['\n']) :: ls, r) := by
  conv_lhs => rw [readHeaderLinesAux]
  rw [if_pos rfl]

theorem readHeaderLinesAux_lines (s : List Char) :
    ∀ (cur : List Char), '\n' ∉ cur →
      ∀ {lines : List (List Char)} {rest : List Char},
        readHeaderLinesAux cur s = some (lines, rest) →
        ∀ l ∈ lines, l ≠ [] ∧ trimEnd l = l ∧ '\n' ∉ l := by
  induction s with
  | nil =>
    intro cur hcur lines rest h l hl
    simp only [readHeaderLinesAux] at h
    by_cases he : cur.isEmpty
    · rw [if_pos he] at h
      exact Option.noConfusion h
    · rw [if_neg he] at h
      by_cases ht : (trimEnd cur.reverse).isEmpty
      · rw [if_pos ht] at h
        simp only [Option.some.injEq, Prod.mk.injEq] at h
        rw [← h.1] at hl
        simp at hl
      · rw [if_neg ht] at h
        exact Option.noConfusion h
  | cons c cs ih =>
    intro cur hcur lines rest h l hl
    by_cases hc : c = '\n'
    · subst hc
      rw [rhla_step_newline] at h
      by_cases ht : (trimEnd (cur.reverse ++ ['\n'])).isEmpty
      · rw [if_pos ht] at h
        simp only [Option.some.injEq, Prod.mk.injEq] at h
        rw [← h.1] at hl
        simp at hl
      · rw [if_neg ht] at h
        cases hrec : readHeaderLinesAux [] cs with
        | none =>
          rw [hrec] at h
          exact Option.noConfusion h
        | some pr =>
          rw [hrec] at h
          obtain ⟨ls, r⟩ := pr
          simp only [Option.some.injEq, Prod.mk.injEq] at h
          rw [← h.1] at hl
          rcases List.mem_cons.mp hl with h1 | h1
          · subst h1
            have htw : trimEnd (cur.reverse ++ ['\n']) = trimEnd cur.reverse :=
              trimEnd_append_ws (by intro x hx; simp at hx; rw [hx]; rfl) _
            refine ⟨?_, ?_, ?_⟩
            · intro hnil
              exact ht (by rw [hnil]; rfl)
            · rw [htw]
              exact trimEnd_idem _
            · rw [htw]
              intro hmem
              have hmem2 := mem_of_mem_trimEnd hmem
              rw [List.mem_reverse] at hmem2
              exact hcur hmem2
          · exact ih [] (by simp) hrec l h1
    · rw [rhla_step_other hc] at h
      refine ih (c :: cur) ?_ h l hl
      intro hx
      rcases List.mem_cons.mp hx with h1 | h1
      · exact hc h1.symm
      · exact hcur h1

theorem readHeaderLinesAux_no_newline {raw : List Char} (hnl : '\n' ∉ raw) :
    ∀ (cur s : List Char),
      readHeaderLinesAux cur (raw ++ s)
        = readHeaderLinesAux (raw.reverse ++ cur) s := by
  induction raw with
  | nil =>
    intro cur s
    simp
  | cons c cs ih =>
    intro cur s
    simp only [List.mem_cons] at hnl
    push_neg at hnl
    rw [List.cons_append, rhla_step_other (fun hc => hnl.1 hc.symm)]
    rw [ih hnl.2 (c :: cur) s]
    congr 1
    simp

theorem readHeaderLines_serialized (raws : List (List Char)) (body : List Char)
    (hr : ∀ l ∈ raws, '\n' ∉ l ∧ (trimEnd l).isEmpty = false) :
    readHeaderLinesAux [] ((raws.map (· ++ crlf)).flatten ++ crlf ++ body)
      = some (raws.map trimEnd, body) := by
  induction raws with
  | nil =>
    simp only [List.map_nil, List.flatten_nil, List.nil_append]
    show readHeaderLinesAux [] ('\r' :: '\n' :: body) = some ([], body)
    rw [rhla_step_other (by decide), rhla_step_newline]
    rw [if_pos (by decide)]
  | cons raw raws ih =>
    have h0 := hr raw (List.mem_cons_self _ _)
    have hrest := fun l hl => hr l (List.mem_cons_of_mem _ hl)
    simp only [List.map_cons, List.flatten_cons]
    have hassoc : ((raw ++ crlf) ++ (raws.map (· ++ crlf)).flatten) ++ crlf ++ body
        = raw ++ ('\r' :: '\n' :: ((raws.map (· ++ crlf)).flatten ++ crlf ++ body)) := by
      simp [crlf, List.append_assoc]
    rw [hassoc, readHeaderLinesAux_no_newline h0.1 [] _, List.append_nil]
    rw [rhla_step_other (by decide), rhla_step_newline]
    have htrim : trimEnd (('\r' :: raw.reverse).reverse ++ ['\n']) = trimEnd raw := by
      rw [List.reverse_cons, List.reverse_reverse, List.append_assoc]
      exact trimEnd_append_ws (by intro x hx; simp at hx; rcases hx with h | h <;> rw [h] <;> rfl) _
    rw [if_neg (by rw [htrim, h0.2]; exact Bool.noConfusion)]
    rw [ih hrest]
    rw [htrim]

/-! Header maps built by the parser are well-formed. -/

theorem isEmpty_true_iff {α : Type} {l : List α} : l.isEmpty = true ↔ l = [] := by
  cases l <;> simp

theorem headerStep_eq_some {line k0 v0 : List Char}
    (h : splitOnce ':' line = some (k0, v0)) (m : HMap) :
    headerStep m line = hinsert m (toLowerStr (trim k0)) (trim v0) := by
  unfold headerStep
  rw [h]

theorem headerStep_eq_none {line : List Char}
    (h : splitOnce ':' line = none) (m : HMap) : headerStep m line = m := by
  unfold headerStep
  rw [h]

theorem headerStep_wf {m : HMap} (hm : wfHeaders m) {line : List Char}
    (hline : '\n' ∉ line) : wfHeaders (headerStep m line) := by
  cases hs : splitOnce ':' line with
  | none =>
    rw [headerStep_eq_none hs]
    exact hm
  | some pr =>
    obtain ⟨k0, v0⟩ := pr
    rw [headerStep_eq_some hs]
    obtain ⟨hcol, heq⟩ := splitOnce_inv hs
    have hknl : '\n' ∉ k0 := by
      intro hmem
      apply hline
      rw [heq]
      exact List.mem_append_left _ hmem
    have hvnl : '\n' ∉ v0 := by
      intro hmem
      apply hline
      rw [heq]
      exact List.mem_append_right _ (List.mem_cons_of_mem _ hmem)
    constructor
    · intro kv hkv
      rcases mem_hinsert hkv with h1 | h1
      · exact hm.1 kv h1
      · rw [h1]
        refine ⟨⟨?_, ?_, ?_, ?_⟩, ?_, ?_⟩
        · apply trim_eq_self_of
          · rw [headNotWS_toLowerStr]
            exact trim_headNotWS _
          · show headNotWS (List.map Char.toLower (trim k0)).reverse = true
            rw [← List.map_reverse]
            show headNotWS (toLowerStr (trim k0).reverse) = true
            rw [headNotWS_toLowerStr]
            exact trim_rev_headNotWS _
        · exact toLowerStr_idem _
        · intro hmem
          exact hcol (mem_of_mem_trim (mem_toLowerStr_small (by decide) hmem))
        · intro hmem
          exact hknl (mem_of_mem_trim (mem_toLowerStr_small (by decide) hmem))
        · exact trim_idem _
        · intro hmem
          exact hvnl (mem_of_mem_trim hmem)
    · exact nodup_map_fst_hinsert hm.2 _ _

theorem foldl_headerStep_wf (lines : List (List Char)) :
    ∀ (m : HMap), (∀ l ∈ lines, '\n' ∉ l) → wfHeaders m →
      wfHeaders (lines.foldl headerStep m) := by
  induction lines with
  | nil =>
    intro m _ hm
    exact hm
  | cons l ls ih =>
    intro m h hm
    rw [List.foldl_cons]
    exact ih _ (fun x hx => h x (List.mem_cons_of_mem _ hx))
      (headerStep_wf hm (h l (List.mem_cons_self _ _)))

theorem buildHeaders_wf {lines : List (List Char)}
    (h : ∀ l ∈ lines, '\n' ∉ l) : wfHeaders (buildHeaders lines) :=
  foldl_headerStep_wf lines [] h
    ⟨fun kv hkv => absurd hkv (List.not_mem_nil _), List.nodup_nil⟩

/-! Reparsing a serialized header map reproduces it. -/

theorem headerLine_trimEnd {k v : List Char} (hk : wfKey k) (hv : wfVal v) :
    trimEnd (k ++ ':' :: ' ' :: v)
      = if v.isEmpty then k ++ [':'] else k ++ ':' :: ' ' :: v := by
  by_cases hve : v.isEmpty = true
  · rw [if_pos hve]
    have hv0 : v = [] := isEmpty_true_iff.mp hve
    subst hv0
    have hsplit : k ++ ':' :: ' ' :: ([] : List Char)
        = (k ++ [':']) ++ [' '] := by simp
    rw [hsplit, trimEnd_append_ws (by intro x hx; simp at hx; rw [hx]; rfl),
      trimEnd_append_nonws (by rfl)]
  · rw [if_neg hve]
    have hv0 : v ≠ [] := fun h => hve (by rw [h]; rfl)
    apply trimEnd_eq_self
    have hrev : (k ++ ':' :: ' ' :: v).reverse
        = v.reverse ++ ([' ', ':'] ++ k.reverse) := by
      simp
    rw [hrev]
    apply headNotWS_append _ (by simpa using hv0)
    exact trimEnd_fix_rev_headNotWS (trim_eq_self_parts hv.1).2

theorem headerStep_serialized {k v : List Char} (hk : wfKey k) (hv : wfVal v)
    (m : HMap) :
    headerStep m (trimEnd (k ++ ':' :: ' ' :: v)) = hinsert m k v := by
  rw [headerLine_trimEnd hk hv]
  by_cases hve : v.isEmpty = true
  · rw [if_pos hve]
    have hv0 : v = [] := isEmpty_true_iff.mp hve
    subst hv0
    rw [headerStep_eq_some
      (show splitOnce ':' (k ++ [':']) = some (k, []) from
        splitOnce_append hk.2.2.1 [])]
    rw [hk.1, hk.2.1]
    rfl
  · rw [if_neg hve]
    rw [headerStep_eq_some (splitOnce_append hk.2.2.1 (' ' :: v))]
    have htv : trim (' ' :: v) = v := by
      obtain ⟨h1, h2⟩ := trim_eq_self_parts hv.1
      unfold trim trimStart
      rw [List.dropWhile_cons, if_pos (by rfl)]
      unfold trimStart at h1
      rw [h1]
      exact h2
    rw [htv, hk.1, hk.2.1]

theorem foldl_headerStep_serialized (m : HMap) :
    ∀ (acc : HMap),
      (∀ kv ∈ m, wfKey kv.1 ∧ wfVal kv.2) →
      (m.map Prod.fst).Nodup →
      (∀ kv ∈ m, kv.1 ∉ acc.map Prod.fst) →
      (m.map (fun kv => trimEnd (kv.1 ++ ':' :: ' ' :: kv.2))).foldl headerStep acc
        = acc ++ m := by
  induction m with
  | nil =>
    intro acc _ _ _
    simp
  | cons kv m ih =>
    intro acc hwf hnd hdisj
    obtain ⟨k, v⟩ := kv
    have hw0 := hwf _ (List.mem_cons_self _ _)
    simp only [List.map_cons, List.foldl_cons]
    rw [headerStep_serialized hw0.1 hw0.2,
      hinsert_of_not_mem (hdisj _ (List.mem_cons_self _ _)) v]
    simp only [List.map_cons, List.nodup_cons] at hnd
    rw [ih (acc ++ [(k, v)])
      (fun x hx => hwf x (List.mem_cons_of_mem _ hx)) hnd.2 ?_]
    · simp
    · intro x hx
      rw [List.map_append]
      intro hmem
      rcases List.mem_append.mp hmem with h1 | h1
      · exact hdisj x (List.mem_cons_of_mem _ hx) h1
      · simp only [List.map_cons, List.map_nil, List.mem_singleton] at h1
        exact hnd.1 (h1 ▸ List.mem_map_of_mem Prod.fst hx)

theorem buildHeaders_serialized {m : HMap} (hwf : wfHeaders m) :
    buildHeaders (m.map (fun kv => trimEnd (kv.1 ++ ':' :: ' ' :: kv.2))) = m := by
  unfold buildHeaders
  rw [foldl_headerStep_serialized m [] hwf.1 hwf.2 (by simp)]
  rfl

/-! Facts about the serialized request and status line. -/

theorem headNotWS_rev_of_all {s : List Char} (h : ∀ c ∈ s, isWS c = false) :
    headNotWS s.reverse = true := by
  cases hs : s.reverse with
  | nil => rfl
  | cons c cs =>
    show (!isWS c) = true
    have hc : c ∈ s := by
      rw [← List.mem_reverse, hs]
      exact List.mem_cons_self _ _
    rw [h c hc]
    rfl

theorem reqLine_facts {m p v : List Char}
    (hm0 : m ≠ []) (hm : ∀ c ∈ m, isWS c = false)
    (hp : ∀ c ∈ p, isWS c = false)
    (hv0 : v ≠ []) (hv : ∀ c ∈ v, isWS c = false) :
    '\n' ∉ (m ++ ' ' :: (p ++ ' ' :: v)) ∧
    trimEnd (m ++ ' ' :: (p ++ ' ' :: v)) = m ++ ' ' :: (p ++ ' ' :: v) ∧
    (trimEnd (m ++ ' ' :: (p ++ ' ' :: v))).isEmpty = false := by
  have htrim : trimEnd (m ++ ' ' :: (p ++ ' ' :: v))
      = m ++ ' ' :: (p ++ ' ' :: v) := by
    apply trimEnd_eq_self
    have hrev : (m ++ ' ' :: (p ++ ' ' :: v)).reverse
        = v.reverse ++ (' ' :: (p.reverse ++ ' ' :: m.reverse)) := by
      simp
    rw [hrev]
    exact headNotWS_append _ (by simpa using hv0) (headNotWS_rev_of_all hv)
  refine ⟨?_, htrim, ?_⟩
  · intro hmem
    rcases List.mem_append.mp hmem with h1 | h1
    · exact absurd (hm _ h1) (by decide)
    · rcases List.mem_cons.mp h1 with h2 | h2
      · exact absurd h2 (by decide)
      · rcases List.mem_append.mp h2 with h3 | h3
        · exact absurd (hp _ h3) (by decide)
        · rcases List.mem_cons.mp h3 with h4 | h4
          · exact absurd h4 (by decide)
          · exact absurd (hv _ h4) (by decide)
  · rw [htrim]
    cases m with
    | nil => exact absurd rfl hm0
    | cons c cs => rfl

theorem headerRaw_facts {k v : List Char} (hk : wfKey k) (hv : wfVal v) :
    '\n' ∉ (k ++ ':' :: ' ' :: v) ∧
    (trimEnd (k ++ ':' :: ' ' :: v)).isEmpty = false := by
  constructor
  · intro hmem
    rcases List.mem_append.mp hmem with h1 | h1
    · exact hk.2.2.2 h1
    · rcases List.mem_cons.mp h1 with h2 | h2
      · exact absurd h2 (by decide)
      · rcases List.mem_cons.mp h2 with h3 | h3
        · exact absurd h3 (by decide)
        · exact hv.2 h3
  · rw [headerLine_trimEnd hk hv]
    by_cases hve : v.isEmpty = true
    · rw [if_pos hve]
      cases k <;> rfl
    · rw [if_neg hve]
      cases k <;> rfl

/-! Inversion of a successful parse. -/

theorem readBody_cl_none {headers : HMap} (hcl : hlookup clKey headers = none)
    (rest : List Char) : readBody headers rest = .ok ([], rest) := by
  unfold readBody
  rw [hcl]

theorem readBody_cl_bad {headers : HMap} {cv : List Char}
    (hcl : hlookup clKey headers = some cv) (hbad : parseUsize cv = none)
    (rest : List Char) : readBody headers rest = .ok ([], rest) := by
  rw [readBody_cl hcl, hbad]

theorem parse_ok_inv {input : List Char} {r : HttpRequest} {rest : List Char}
    (h : HttpRequest.parse input = .ok r rest) :
    ∃ (l0 : List Char) (hls : List (List Char)) (rest0 : List Char),
      readHeaderLines input = some (l0 :: hls, rest0) ∧
      splitWhitespace l0 = [r.method, r.path, r.version] ∧
      r.headers = buildHeaders hls ∧
      readBody (buildHeaders hls) rest0 = .ok (r.body, rest) := by
  unfold HttpRequest.parse at h
  cases hrd : readHeaderLines input with
  | none =>
    rw [hrd] at h
    exact ParseResult.noConfusion h
  | some pr =>
    rw [hrd] at h
    obtain ⟨lines, rest0⟩ := pr
    cases lines with
    | nil => exact ParseResult.noConfusion h
    | cons l0 hls =>
      refine ⟨l0, hls, rest0, rfl, ?_⟩
      have h' : parseAfterHeaders l0 hls rest0 = .ok r rest := h
      unfold parseAfterHeaders at h'
      split at h'
      · rename_i m p v heq
        dsimp only at h'
        split at h'
        · rename_i body leftover heq2
          simp only [ParseResult.ok.injEq] at h'
          obtain ⟨hrec, hleft⟩ := h'
          refine ⟨?_, ?_, ?_⟩
          · rw [← hrec]
            exact heq
          · rw [← hrec]
          · rw [← hrec, ← hleft]
            exact heq2
        · exact ParseResult.noConfusion h'
      · exact ParseResult.noConfusion h'

theorem splitWhitespace_tokens {s w : List Char} (h : w ∈ splitWhitespace s) :
    w ≠ [] ∧ ∀ c ∈ w, isWS c = false :=
  splitWSAux_mem s [] (by simp) w h

theorem readBody_inv {headers : HMap} {rest0 body rest : List Char}
    (h : readBody headers rest0 = .ok (body, rest)) :
    (∃ cv n, hlookup clKey headers = some cv ∧ parseUsize cv = some n ∧
      body.length = n) ∨
    (body = [] ∧
      ((∃ cv, hlookup clKey headers = some cv ∧ parseUsize cv = none) ∨
        hlookup clKey headers = none)) := by
  cases hcl : hlookup clKey headers with
  | none =>
    rw [readBody_cl_none hcl] at h
    simp only [Except.ok.injEq, Prod.mk.injEq] at h
    exact Or.inr ⟨h.1.symm, Or.inr rfl⟩
  | some cv =>
    cases hn : parseUsize cv with
    | none =>
      rw [readBody_cl_bad hcl hn] at h
      simp only [Except.ok.injEq, Prod.mk.injEq] at h
      exact Or.inr ⟨h.1.symm, Or.inl ⟨cv, rfl, hn⟩⟩
    | some n =>
      rw [readBody_cl_n hcl hn] at h
      cases hre : readExact n rest0 with
      | none =>
        rw [hre] at h
        exact Except.noConfusion h
      | some pr =>
        rw [hre] at h
        obtain ⟨b, rr⟩ := pr
        simp only [Except.ok.injEq, Prod.mk.injEq] at h
        unfold readExact at hre
        by_cases hle : n ≤ rest0.length
        · rw [if_pos hle] at hre
          simp only [Option.some.injEq, Prod.mk.injEq] at hre
          refine Or.inl ⟨cv, n, rfl, hn, ?_⟩
          rw [← h.1, ← hre.1, List.length_take]
          exact Nat.min_eq_left hle
        · rw [if_neg hle] at hre
          exact Option.noConfusion hre

/-- C1: for every request whose body length equals its declared
    content-length (which `HttpRequest::parse` guarantees for every
    request it accepts), parsing with `HttpRequest::parse` and then
    reconstructing the request in the serialized wire format
    (`requestToBytes`, modelled from the spec) preserves the method, the
    path, the version, the full header set (order-insensitively, via
    `hlookup`) and the body bytes exactly: reparsing the reconstruction
    returns the identical request with the whole stream consumed. -/
theorem c1_parse_serialize_roundtrip (w : List Char) (r : HttpRequest)
    (rest : List Char) (h : HttpRequest.parse w = .ok r rest) :
    ∃ r' : HttpRequest,
      HttpRequest.parse (requestToBytes r) = .ok r' [] ∧
      r'.method = r.method ∧ r'.path = r.path ∧ r'.version = r.version ∧
      (∀ k, hlookup k r'.headers = hlookup k r.headers) ∧
      r'.body = r.body := by
  obtain ⟨l0, hls, rest0, hrd, hsw, hhd, hbody⟩ := parse_ok_inv h
  have hmethod := splitWhitespace_tokens (s := l0) (w := r.method)
    (by rw [hsw]; exact List.mem_cons_self _ _)
  have hpath := splitWhitespace_tokens (s := l0) (w := r.path)
    (by rw [hsw]; simp)
  have hversion := splitWhitespace_tokens (s := l0) (w := r.version)
    (by rw [hsw]; simp)
  have hlinesp : ∀ l ∈ (l0 :: hls), l ≠ [] ∧ trimEnd l = l ∧ '\n' ∉ l :=
    readHeaderLinesAux_lines w [] (by simp) hrd
  have hwf : wfHeaders r.headers := by
    rw [hhd]
    exact buildHeaders_wf (fun l hl => (hlinesp l (List.mem_cons_of_mem _ hl)).2.2)
  have hshape : r.method ++ ' ' :: r.path ++ ' ' :: r.version
      = r.method ++ ' ' :: (r.path ++ ' ' :: r.version) := by
    simp
  have hq := reqLine_facts hmethod.1 hmethod.2 hpath.2 hversion.1 hversion.2
  have hraws : ∀ l ∈ ((r.method ++ ' ' :: r.path ++ ' ' :: r.version) ::
      r.headers.map (fun kv => kv.1 ++ ':' :: ' ' :: kv.2)),
      '\n' ∉ l ∧ (trimEnd l).isEmpty = false := by
    intro l hl
    rcases List.mem_cons.mp hl with h1 | h1
    · rw [h1, hshape]
      exact ⟨hq.1, hq.2.2⟩
    · rcases List.mem_map.mp h1 with ⟨kv, hkv, hline⟩
      rw [← hline]
      have hwkv := hwf.1 kv hkv
      exact headerRaw_facts hwkv.1 hwkv.2
  have hserial := readHeaderLines_serialized
    ((r.method ++ ' ' :: r.path ++ ' ' :: r.version) ::
      r.headers.map (fun kv => kv.1 ++ ':' :: ' ' :: kv.2)) r.body hraws
  have htrimL0 : trimEnd (r.method ++ ' ' :: r.path ++ ' ' :: r.version)
      = r.method ++ ' ' :: r.path ++ ' ' :: r.version := by
    rw [hshape]
    exact hq.2.1
  have hsw' : splitWhitespace (trimEnd
        (r.method ++ ' ' :: r.path ++ ' ' :: r.version))
      = [r.method, r.path, r.version] := by
    rw [htrimL0, hshape]
    exact splitWhitespace_three hmethod.1 hmethod.2 hpath.1 hpath.2
      hversion.1 hversion.2
  have hmapped : ((r.headers.map (fun kv => kv.1 ++ ':' :: ' ' :: kv.2)).map
        trimEnd)
      = r.headers.map (fun kv => trimEnd (kv.1 ++ ':' :: ' ' :: kv.2)) := by
    rw [List.map_map]
    rfl
  refine ⟨r, ?_, rfl, rfl, rfl, fun k => rfl, rfl⟩
  have hbody' : readBody r.headers rest0 = .ok (r.body, rest) := by
    rw [hhd]
    exact hbody
  unfold HttpRequest.parse
  rw [show readHeaderLines (requestToBytes r)
        = some (trimEnd (r.method ++ ' ' :: r.path ++ ' ' :: r.version) ::
            r.headers.map (fun kv => trimEnd (kv.1 ++ ':' :: ' ' :: kv.2)),
            r.body) from by
      show readHeaderLinesAux [] (requestToBytes r) = _
      unfold requestToBytes
      rw [hserial, List.map_cons, hmapped]]
  show parseAfterHeaders (trimEnd (r.method ++ ' ' :: r.path ++ ' ' :: r.version))
      (r.headers.map (fun kv => trimEnd (kv.1 ++ ':' :: ' ' :: kv.2))) r.body
      = ParseResult.ok r []
  rw [parseAfterHeaders_three hsw', buildHeaders_serialized hwf]
  rcases readBody_inv hbody' with ⟨cv, n, hclv, hn, hlen⟩ | ⟨hb0, hbad⟩
  · have hre : readBody r.headers r.body = .ok (r.body, []) := by
      rw [readBody_cl_n hclv hn]
      have hex : readExact n r.body = some (r.body, []) := by
        unfold readExact
        rw [if_pos (by omega)]
        rw [← hlen, List.take_length, List.drop_length]
      rw [hex]
    rw [hre]
  · have hre : readBody r.headers r.body = .ok ([], r.body) := by
      rcases hbad with ⟨cv, hclv, hn⟩ | hnone
      · exact readBody_cl_bad hclv hn _
      · exact readBody_cl_none hnone _
    rw [hre]
    show ParseResult.ok
        (HttpRequest.mk r.method r.path r.version r.headers []) r.body
      = ParseResult.ok r []
    rw [← hb0]

/-- Concrete wire input for the round-trip witness. -/
def wC1 : List Char :=
  "POST /u HTTP/1.1\r\nHost: h\r\nContent-Length: 2\r\n\r\nok".toList

/-- Request value `HttpRequest::parse` extracts from `wC1`. -/
def wreqC1 : HttpRequest :=
  { method := "POST".toList, path := "/u".toList, version := "HTTP/1.1".toList,
    headers := [( "host".toList, "h".toList),
                ( "content-length".toList, "2".toList)],
    body := "ok".toList }

/-- Witness for C1: the round trip at a concrete request with two
    headers and a content-length-framed body. -/
theorem c1_witness :
    ∃ r' : HttpRequest,
      HttpRequest.parse (requestToBytes wreqC1) = .ok r' [] ∧
      r'.method = wreqC1.method ∧ r'.path = wreqC1.path ∧
      r'.version = wreqC1.version ∧
      (∀ k, hlookup k r'.headers = hlookup k wreqC1.headers) ∧
      r'.body = wreqC1.body :=
  c1_parse_serialize_roundtrip wC1 wreqC1 [] (by decide)
